import Mathlib

/-!
Verification of the entropy-comparison pipeline of `src/entropy_app.py`
(`process_image`, lines 8-50).

The Python function takes a decoded image (a numpy array that is 2-D
grayscale or 3-D with trailing channel axis), a neighborhood `radius`, and a
`tolerance`.  It normalizes the array to three channels, computes per-channel
local Shannon entropy with `skimage.filters.rank.entropy` over a
`skimage.morphology.disk(radius)` footprint, builds a boolean mask where the
three pairwise absolute entropy differences are strictly below the tolerance,
and returns the normalized array, a highlighted copy (mask pixels overwritten
with (255, 0, 0)), the mask, and the three entropy maps.

Modelling conventions used by this development:

* numpy arrays are embedded as dimension-tagged total functions together with
  explicit extents (`NpArr`, `Arr2`, `Arr3`); only indices below the recorded
  extents are meaningful.
* Samples are modelled at uint8 depth as natural numbers; `img_as_ubyte` is
  the identity on uint8 input, so it is not given a separate definition.
* Entropy values are idealized real numbers (the Python code computes IEEE
  doubles); `Real.negMulLog x / Real.log 2` is `-x * log2 x`.
* `skimage.morphology.disk radius` is embedded from its source: offsets
  `(i - radius, j - radius)` for `i, j ∈ [0, 2*radius]` kept when
  `dy^2 + dx^2 ≤ radius^2`.
* `skimage.filters.rank.entropy` is embedded as the base-2 entropy of the
  histogram of the footprint neighborhood clipped to the image bounds
  (out-of-image neighbors contribute nothing), the boundary policy of the
  rank-filter loop.
* Python exceptions raised on malformed input (fancy indexing a 1-D array,
  reading a missing channel, an empty footprint from a negative radius,
  broadcasting `[255, 0, 0]` into a non-3-channel array) are embedded as
  `Except.error` with an `IndexError`/`ValueError` tag.
-/

namespace EntropyApp

/-- A numpy array of unsigned 8-bit samples, tagged with its dimensionality:
1-D, 2-D (grayscale `H×W`), or 3-D (`H×W×C` with trailing channel axis). -/
inductive NpArr where
  | a1 (n : ℕ) (d : ℕ → ℕ)
  | a2 (H W : ℕ) (d : ℕ → ℕ → ℕ)
  | a3 (H W C : ℕ) (d : ℕ → ℕ → ℕ → ℕ)

/-- A 2-D array of `α` values with extents `H × W`. -/
structure Arr2 (α : Type) where
  H : ℕ
  W : ℕ
  d : ℕ → ℕ → α

/-- A 3-D array of `α` values with extents `H × W × C`. -/
structure Arr3 (α : Type) where
  H : ℕ
  W : ℕ
  C : ℕ
  d : ℕ → ℕ → ℕ → α

/-- The normalization block of `process_image` (lines 15-19): a 3-D array with
exactly 4 channels loses its alpha plane (the data function is unchanged; the
recorded channel count drops to 3, hiding plane 3), a 2-D grayscale array is
stacked into three identical channels, and every other array is returned
unchanged. -/
def normalize (a : NpArr) : NpArr :=
  match a with
  | .a3 H W 4 d => .a3 H W 3 d
  | .a2 H W d => .a3 H W 3 (fun y x _ => d y x)
  | a => a

/-- `skimage.morphology.disk radius` as the list of footprint offsets it
selects: `meshgrid` coordinates `(i - radius, j - radius)` for
`i, j ∈ [0, 2*radius]`, kept when `dy² + dx² ≤ radius²`. -/
def disk (radius : ℕ) : List (ℤ × ℤ) :=
  ((List.range (2 * radius + 1)).flatMap fun (i : ℕ) =>
    (List.range (2 * radius + 1)).map fun (j : ℕ) =>
      (((i : ℤ) - radius, (j : ℤ) - radius))).filter
    fun p => p.1 ^ 2 + p.2 ^ 2 ≤ (radius : ℤ) ^ 2

/-- The sample values inside the footprint neighborhood of position `(y, x)`,
keeping only offsets that land inside the `H × W` image (the rank-filter
boundary policy: out-of-image neighbors are ignored). -/
def footprintVals (H W : ℕ) (d : ℕ → ℕ → ℕ) (fp : List (ℤ × ℤ)) (y x : ℕ) :
    List ℕ :=
  fp.filterMap fun p =>
    let yy := (y : ℤ) + p.1
    let xx := (x : ℤ) + p.2
    if 0 ≤ yy ∧ yy < (H : ℤ) ∧ 0 ≤ xx ∧ xx < (W : ℤ) then
      some (d yy.toNat xx.toNat)
    else none

/-- One histogram-bin contribution to the rank-filter entropy: for a bin
holding `count` of the `n` neighborhood samples, `-p * log2 p` with
`p = count / n` (zero when the bin is empty, matching the `p > 0` guard). -/
noncomputable def binTerm (count n : ℕ) : ℝ :=
  Real.negMulLog ((count : ℝ) / (n : ℝ)) / Real.log 2

/-- `skimage.filters.rank.entropy image footprint`: at each position, the
base-2 Shannon entropy of the 256-bin histogram of the in-bounds footprint
neighborhood. -/
noncomputable def entropy (image : Arr2 ℕ) (fp : List (ℤ × ℤ)) : Arr2 ℝ :=
  ⟨image.H, image.W, fun y x =>
    let vals := footprintVals image.H image.W image.d fp y x
    ∑ v ∈ Finset.range 256, binTerm (vals.count v) vals.length⟩

/-- `np.abs (a - b)`, element-wise, extents taken from the left operand. -/
def absDiff (a b : Arr2 ℝ) : Arr2 ℝ :=
  ⟨a.H, a.W, fun y x => |a.d y x - b.d y x|⟩

/-- `a < t`, element-wise comparison of an array against a scalar. -/
def ltMask (a : Arr2 ℝ) (t : ℝ) : Arr2 Prop :=
  ⟨a.H, a.W, fun y x => a.d y x < t⟩

/-- `m1 & m2`, element-wise conjunction of boolean arrays. -/
def andMask (m1 m2 : Arr2 Prop) : Arr2 Prop :=
  ⟨m1.H, m1.W, fun y x => m1.d y x ∧ m2.d y x⟩

open scoped Classical in
/-- `highlighted_image[mask] = [255, 0, 0]` applied to a fresh copy: positions
where the mask holds take the highlight color `[255, 0, 0]`, all others keep
the pixel of `img`. -/
noncomputable def highlight (img : Arr3 ℕ) (m : Arr2 Prop) : Arr3 ℕ :=
  ⟨img.H, img.W, img.C, fun y x c =>
    if m.d y x then [255, 0, 0].getD c 0 else img.d y x c⟩

/-- The Python exceptions observable from `process_image` on malformed input.
The source defines no exception class of its own (in particular no
`ValidationError`); failures surface as numpy/skimage library errors. -/
inductive PyErr where
  | indexError
  | valueError
deriving DecidableEq

/-- The tuple returned by `process_image`: normalized original, highlighted
copy, boolean match mask, and the three per-channel entropy maps. -/
structure POut where
  original : Arr3 ℕ
  highlighted : Arr3 ℕ
  mask : Arr2 Prop
  entR : Arr2 ℝ
  entG : Arr2 ℝ
  entB : Arr2 ℝ

/-- The successful tail of `process_image` (lines 22-50) on a normalized
3-channel `H × W` array: split channels, compute the three entropy maps over
`disk radius`, mask where all three pairwise absolute differences are strictly
below the tolerance, and highlight a copy. -/
noncomputable def mkOut (H W : ℕ) (d : ℕ → ℕ → ℕ → ℕ) (radius : ℕ)
    (tolerance : ℝ) : POut :=
  let red : Arr2 ℕ := ⟨H, W, fun y x => d y x 0⟩
  let green : Arr2 ℕ := ⟨H, W, fun y x => d y x 1⟩
  let blue : Arr2 ℕ := ⟨H, W, fun y x => d y x 2⟩
  let selem := disk radius
  let entropy_red := entropy red selem
  let entropy_green := entropy green selem
  let entropy_blue := entropy blue selem
  let mask :=
    andMask
      (andMask (ltMask (absDiff entropy_red entropy_green) tolerance)
        (ltMask (absDiff entropy_red entropy_blue) tolerance))
      (ltMask (absDiff entropy_green entropy_blue) tolerance)
  ⟨⟨H, W, 3, d⟩, highlight ⟨H, W, 3, d⟩ mask, mask,
    entropy_red, entropy_green, entropy_blue⟩

/-- `process_image image radius tolerance` (lines 8-50).  After normalization:
a 1-D array fails channel extraction (`IndexError`); a 3-D array with fewer
than 3 channels fails extracting a missing channel (`IndexError`); a negative
radius yields an empty `disk` footprint rejected by the rank filter
(`ValueError`); a channel count above 3 (not reduced by normalization) fails
broadcasting `[255, 0, 0]` in the highlight assignment (`ValueError`);
otherwise the full output tuple is returned. -/
noncomputable def process_image (image : NpArr) (radius : ℤ) (tolerance : ℝ) :
    Except PyErr POut :=
  match normalize image with
  | .a1 _ _ => .error .indexError
  | .a2 _ _ _ => .error .indexError
  | .a3 H W C d =>
    if C < 3 then .error .indexError
    else if radius < 0 then .error .valueError
    else if C = 3 then .ok (mkOut H W d radius.toNat tolerance)
    else .error .valueError

/-- The payload of a successful `process_image` call (junk on failure). -/
noncomputable def okOut (image : NpArr) (radius : ℤ) (tolerance : ℝ) : POut :=
  match process_image image radius tolerance with
  | .ok o => o
  | .error _ =>
    ⟨⟨0, 0, 0, fun _ _ _ => 0⟩, ⟨0, 0, 0, fun _ _ _ => 0⟩,
      ⟨0, 0, fun _ _ => False⟩, ⟨0, 0, fun _ _ => 0⟩,
      ⟨0, 0, fun _ _ => 0⟩, ⟨0, 0, fun _ _ => 0⟩⟩

/-- Whether a `process_image` call produced output. -/
def pIsOk : Except PyErr POut → Bool
  | .ok _ => true
  | .error _ => false

/-- Inputs whose shape the pipeline cannot process: 1-D arrays, and 3-D
arrays whose channel count is neither 3 nor 4. -/
def badShape : NpArr → Bool
  | .a1 _ _ => true
  | .a2 _ _ _ => false
  | .a3 _ _ C _ => decide (C ≠ 3 ∧ C ≠ 4)

/-- The channel count of a 3-D array, `none` for other dimensionalities. -/
def nChannels : NpArr → Option ℕ
  | .a1 _ _ => none
  | .a2 _ _ _ => none
  | .a3 _ _ C _ => some C

/-- The spatial extents of an input array, `none` for 1-D arrays. -/
def inputDims : NpArr → Option (ℕ × ℕ)
  | .a1 _ _ => none
  | .a2 H W _ => some (H, W)
  | .a3 H W _ _ => some (H, W)

/-- The data function of the normalized input (junk for 1-D arrays, which
never reach the success path). -/
def normData (a : NpArr) : ℕ → ℕ → ℕ → ℕ :=
  match normalize a with
  | .a1 _ _ => fun _ _ _ => 0
  | .a2 _ _ g => fun y x _ => g y x
  | .a3 _ _ _ d => d

/-- All in-bounds samples of the array are 8-bit (below 256). -/
def uint8 : NpArr → Prop
  | .a1 n e => ∀ i, i < n → e i < 256
  | .a2 H W g => ∀ y x, y < H → x < W → g y x < 256
  | .a3 H W C d => ∀ y x c, y < H → x < W → c < C → d y x c < 256

open scoped Classical in
/-- `np.sum mask`: the number of in-bounds positions where the mask holds. -/
noncomputable def trueCount (m : Arr2 Prop) : ℕ :=
  ((Finset.range m.H ×ˢ Finset.range m.W).filter fun p => m.d p.1 p.2).card

/-- A 1×1 grayscale sample image with the single sample 128. -/
def gray1 : NpArr := NpArr.a2 1 1 fun _ _ => 128

/-- Inversion principle for the pipeline: a call succeeds exactly when the
radius is nonnegative and normalization produced a 3-channel array, and then
the output is `mkOut` of the normalized data. -/
theorem process_ok_iff (image : NpArr) (radius : ℤ) (tolerance : ℝ)
    (out : POut) :
    process_image image radius tolerance = Except.ok out ↔
      0 ≤ radius ∧ ∃ H W d, normalize image = NpArr.a3 H W 3 d ∧
        out = mkOut H W d radius.toNat tolerance := by
  unfold process_image
  cases hn : normalize image with
  | a1 n e => simp [hn]
  | a2 H W g => simp [hn]
  | a3 H W C d =>
    by_cases h3 : C < 3
    · simp only [if_pos h3]
      constructor
      · intro h; exact absurd h (by simp)
      · rintro ⟨-, H', W', d', he, -⟩
        injection he with h1 h2 h3' h4
        omega
    · simp only [if_neg h3]
      by_cases hr : radius < 0
      · simp only [if_pos hr]
        constructor
        · intro h; exact absurd h (by simp)
        · rintro ⟨hge, -⟩; omega
      · simp only [if_neg hr]
        by_cases hc : C = 3
        · subst hc
          simp only [if_pos rfl]
          constructor
          · intro h
            refine ⟨by omega, H, W, d, rfl, ?_⟩
            injection h with h'
            exact h'.symm
          · rintro ⟨-, H', W', d', he, ho⟩
            injection he with h1 h2 h3' h4
            subst h1; subst h2; subst h4
            simp [ho]
        · simp only [if_neg hc]
          constructor
          · intro h; exact absurd h (by simp)
          · rintro ⟨-, H', W', d', he, -⟩
            injection he with h1 h2 h3' h4
            omega

/-- Normalization preserves the spatial extents of 2-D and 3-D inputs. -/
theorem normalize_dims (a : NpArr) (H W C : ℕ) (d : ℕ → ℕ → ℕ → ℕ)
    (h : normalize a = NpArr.a3 H W C d) : inputDims a = some (H, W) := by
  cases a with
  | a1 n e => simp [normalize] at h
  | a2 H' W' g =>
    injection h with h1 h2 h3 h4
    subst h1; subst h2
    rfl
  | a3 H' W' C' d' =>
    unfold normalize at h
    rcases C' with - | - | - | - | (- | C')
    all_goals injection h with h1 h2 h3 h4
    all_goals subst h1; subst h2
    all_goals rfl

/-- Every sample collected from a footprint neighborhood is an in-bounds
sample of the channel. -/
theorem footprintVals_mem (H W : ℕ) (d : ℕ → ℕ → ℕ) (fp : List (ℤ × ℤ))
    (y x v : ℕ) (hv : v ∈ footprintVals H W d fp y x) :
    ∃ a b, a < H ∧ b < W ∧ v = d a b := by
  rw [footprintVals, List.mem_filterMap] at hv
  obtain ⟨p, -, hp⟩ := hv
  by_cases hc : 0 ≤ (y : ℤ) + p.1 ∧ (y : ℤ) + p.1 < (H : ℤ) ∧
      0 ≤ (x : ℤ) + p.2 ∧ (x : ℤ) + p.2 < (W : ℤ)
  · rw [if_pos hc] at hp
    injection hp with hp
    refine ⟨((y : ℤ) + p.1).toNat, ((x : ℤ) + p.2).toNat, ?_, ?_, hp.symm⟩
    · omega
    · omega
  · rw [if_neg hc] at hp
    exact absurd hp (by simp)

/-- If the input is 8-bit, so is every in-bounds sample of the normalized
3-channel data. -/
theorem normalize_uint8 (a : NpArr) (H W : ℕ) (d : ℕ → ℕ → ℕ → ℕ)
    (h8 : uint8 a) (hn : normalize a = NpArr.a3 H W 3 d) :
    ∀ y x c, y < H → x < W → c < 3 → d y x c < 256 := by
  intro y x c hy hx hc
  cases a with
  | a1 n e => simp [normalize] at hn
  | a2 H' W' g =>
    injection hn with h1 h2 h3 h4
    subst h1; subst h2; subst h4
    exact h8 y x hy hx
  | a3 H' W' C' d' =>
    unfold normalize at hn
    rcases C' with - | - | - | - | (- | C')
    all_goals injection hn with h1 h2 h3 h4
    all_goals subst h1
    all_goals subst h2
    all_goals subst h4
    all_goals exact h8 y x c hy hx (by omega)

/-- C1: for every input image, radius and tolerance on which `process_image`
succeeds, the returned mask holds at `(y, x)` iff the three pairwise absolute
differences among the red, green and blue entropy values at that position are
all strictly less than the tolerance. -/
theorem C1_mask_iff (image : NpArr) (radius : ℤ) (tolerance : ℝ) (out : POut)
    (h : process_image image radius tolerance = Except.ok out) (y x : ℕ) :
    out.mask.d y x ↔
      |out.entR.d y x - out.entG.d y x| < tolerance ∧
      |out.entR.d y x - out.entB.d y x| < tolerance ∧
      |out.entG.d y x - out.entB.d y x| < tolerance := by
  rcases (process_ok_iff image radius tolerance out).1 h with
    ⟨-, H, W, d, -, rfl⟩
  simp only [mkOut, andMask, ltMask, absDiff]
  tauto

/-- Witness for C1 at a concrete grayscale input. -/
theorem C1_mask_iff_witness :
    process_image gray1 1 1 = Except.ok (okOut gray1 1 1) ∧
    ((okOut gray1 1 1).mask.d 0 0 ↔
      |(okOut gray1 1 1).entR.d 0 0 - (okOut gray1 1 1).entG.d 0 0| < 1 ∧
      |(okOut gray1 1 1).entR.d 0 0 - (okOut gray1 1 1).entB.d 0 0| < 1 ∧
      |(okOut gray1 1 1).entG.d 0 0 - (okOut gray1 1 1).entB.d 0 0| < 1) :=
  ⟨rfl, C1_mask_iff gray1 1 1 (okOut gray1 1 1) rfl 0 0⟩

/-- C2: in the highlighted buffer, every pixel where the mask holds has
channel values exactly (255, 0, 0), and every pixel where it does not is
equal to the corresponding pixel of the normalized original buffer. -/
theorem C2_highlight_correct (image : NpArr) (radius : ℤ) (tolerance : ℝ)
    (out : POut)
    (h : process_image image radius tolerance = Except.ok out) (y x : ℕ) :
    (out.mask.d y x →
      out.highlighted.d y x 0 = 255 ∧ out.highlighted.d y x 1 = 0 ∧
        out.highlighted.d y x 2 = 0) ∧
    (¬ out.mask.d y x →
      ∀ c, out.highlighted.d y x c = out.original.d y x c) := by
  rcases (process_ok_iff image radius tolerance out).1 h with
    ⟨-, H, W, d, -, rfl⟩
  constructor
  · intro hm
    simp only [mkOut, highlight] at hm ⊢
    rw [if_pos hm, if_pos hm, if_pos hm]
    exact ⟨rfl, rfl, rfl⟩
  · intro hm c
    simp only [mkOut, highlight] at hm ⊢
    rw [if_neg hm]

/-- Witness for C2 at a concrete grayscale input. -/
theorem C2_highlight_correct_witness :
    process_image gray1 1 1 = Except.ok (okOut gray1 1 1) ∧
    (((okOut gray1 1 1).mask.d 0 0 →
      (okOut gray1 1 1).highlighted.d 0 0 0 = 255 ∧
        (okOut gray1 1 1).highlighted.d 0 0 1 = 0 ∧
        (okOut gray1 1 1).highlighted.d 0 0 2 = 0) ∧
    (¬ (okOut gray1 1 1).mask.d 0 0 →
      ∀ c, (okOut gray1 1 1).highlighted.d 0 0 c =
        (okOut gray1 1 1).original.d 0 0 c)) :=
  ⟨rfl, C2_highlight_correct gray1 1 1 (okOut gray1 1 1) rfl 0 0⟩

/-- C10: the first returned array is the normalized input untouched by the
highlighting step: it equals the normalized data at every position and every
channel, including positions where the mask holds (highlighting writes into a
separate copy). -/
theorem C10_original_unmodified (image : NpArr) (radius : ℤ) (tolerance : ℝ)
    (out : POut)
    (h : process_image image radius tolerance = Except.ok out) (y x c : ℕ) :
    out.original.d y x c = normData image y x c ∧
    (out.mask.d y x → out.original.d y x c = normData image y x c) := by
  rcases (process_ok_iff image radius tolerance out).1 h with
    ⟨-, H, W, d, hn, rfl⟩
  have hd : normData image y x c = d y x c := by
    unfold normData
    rw [hn]
  rw [hd]
  exact ⟨rfl, fun _ => rfl⟩

/-- Witness for C10 at a concrete grayscale input. -/
theorem C10_original_unmodified_witness :
    process_image gray1 1 1 = Except.ok (okOut gray1 1 1) ∧
    ((okOut gray1 1 1).original.d 0 0 0 = normData gray1 0 0 0 ∧
      ((okOut gray1 1 1).mask.d 0 0 →
        (okOut gray1 1 1).original.d 0 0 0 = normData gray1 0 0 0)) :=
  ⟨rfl, C10_original_unmodified gray1 1 1 (okOut gray1 1 1) rfl 0 0 0⟩

/-- C3 counterexample: radius 0 is a malformed input according to the claim
(radius ≤ 0), yet `process_image` succeeds and produces output (the footprint
`disk 0` is a valid single-pixel neighborhood), so the claim is false as
stated; moreover no `ValidationError` exists in the code. -/
theorem C3_counterexample : pIsOk (process_image gray1 0 (1 / 10)) = true :=
  rfl

/-- C3 amended: malformed input — a negative radius, a 1-D array, or a 3-D
array whose channel count is neither 3 nor 4 — makes `process_image` fail,
but with a numpy/skimage library error (`IndexError` or `ValueError`), not a
`ValidationError` (the code defines no such class); a radius of 0, malformed
according to the original claim, is instead accepted and produces output. -/
theorem C3_amended (image : NpArr) (radius : ℤ) (tolerance : ℝ)
    (h : badShape image = true ∨ radius < 0) :
    ∃ e : PyErr, process_image image radius tolerance = Except.error e := by
  cases he : process_image image radius tolerance with
  | error e => exact ⟨e, rfl⟩
  | ok out =>
    exfalso
    rcases (process_ok_iff image radius tolerance out).1 he with
      ⟨hr, H, W, d, hn, -⟩
    rcases h with h | h
    · cases image with
      | a1 n e => simp [normalize] at hn
      | a2 H' W' g => simp [badShape] at h
      | a3 H' W' C' d' =>
        rw [badShape] at h
        unfold normalize at hn
        rcases C' with - | - | - | - | (- | C')
        all_goals injection hn with h1 h2 h3 h4
        all_goals simp at h
        all_goals omega
    · omega

/-- Witness for the amended C3: a well-shaped input with a negative radius
fails, and a 1-D input fails. -/
theorem C3_amended_witness :
    (badShape (NpArr.a1 2 fun _ => 0) = true ∨ (5 : ℤ) < 0) ∧
    (badShape (NpArr.a3 1 1 3 fun _ _ _ => 0) = true ∨ (-1 : ℤ) < 0) ∧
    (∃ e : PyErr,
      process_image (NpArr.a1 2 fun _ => 0) 5 1 = Except.error e) ∧
    ∃ e : PyErr,
      process_image (NpArr.a3 1 1 3 fun _ _ _ => 0) (-1) 1 =
        Except.error e :=
  ⟨Or.inl rfl, Or.inr (by norm_num),
    C3_amended (NpArr.a1 2 fun _ => 0) 5 1 (Or.inl rfl),
    C3_amended (NpArr.a3 1 1 3 fun _ _ _ => 0) (-1) 1
      (Or.inr (by norm_num))⟩

/-- C4 counterexample: on a grayscale input with tolerance 0 (allowed by the
claim, which quantifies over tolerance ≥ 0) the mask is false, because the
comparison in the code is strict and `|0| < 0` fails. -/
theorem C4_counterexample : ¬ (okOut gray1 3 0).mask.d 0 0 := by
  have hred : okOut gray1 3 0 =
      mkOut 1 1 (fun y x _ => 128) (Int.toNat 3) 0 := rfl
  rw [hred]
  simp only [mkOut, andMask, ltMask, absDiff]
  intro hm
  exact absurd hm.1.1 (by simp [abs_nonneg])

/-- C4 amended: for every grayscale (2-D) input image and every tolerance
strictly greater than 0, the mask is true at every position: the grayscale
plane is replicated into three identical channels, so all pairwise entropy
differences are exactly 0. -/
theorem C4_amended (H W : ℕ) (g : ℕ → ℕ → ℕ) (radius : ℤ) (tolerance : ℝ)
    (out : POut) (ht : 0 < tolerance)
    (h : process_image (NpArr.a2 H W g) radius tolerance = Except.ok out)
    (y x : ℕ) : out.mask.d y x := by
  rcases (process_ok_iff _ radius tolerance out).1 h with
    ⟨-, H', W', d, hn, rfl⟩
  injection hn with h1 h2 h3 h4
  subst h1; subst h2; subst h4
  simp only [mkOut, andMask, ltMask, absDiff, entropy]
  refine ⟨⟨?_, ?_⟩, ?_⟩
  all_goals simpa using ht

/-- Witness for the amended C4 at a concrete grayscale input. -/
theorem C4_amended_witness :
    (0 : ℝ) < 1 ∧
    process_image (NpArr.a2 1 1 fun _ _ => 128) 1 1 =
      Except.ok (okOut gray1 1 1) ∧
    (okOut gray1 1 1).mask.d 0 0 :=
  ⟨one_pos, rfl,
    C4_amended 1 1 (fun _ _ => 128) 1 1 (okOut gray1 1 1) one_pos rfl 0 0⟩

/-- C6 counterexample: a 5-plane input is returned by normalization with its
5 planes intact, so normalization does not guarantee that downstream logic
operates on exactly 3 planes for every input array. -/
theorem C6_counterexample :
    nChannels (normalize (NpArr.a3 1 1 5 fun _ _ _ => 0)) = some 5 ∧
    ¬ nChannels (normalize (NpArr.a3 1 1 5 fun _ _ _ => 0)) = some 3 :=
  ⟨rfl, by simp [normalize, nChannels]⟩

/-- C6 amended: normalization discards the alpha plane of a 4-plane input
(keeping the first three planes), replicates a single-plane (grayscale) input
three times into an RGB buffer, and leaves 3-plane inputs untouched — so 2-D,
3-plane and 4-plane inputs reach downstream logic with exactly 3 planes; any
other input array passes through normalization unchanged. -/
theorem C6_amended (H W : ℕ) (d : ℕ → ℕ → ℕ → ℕ) (g : ℕ → ℕ → ℕ) (n : ℕ)
    (e : ℕ → ℕ) :
    normalize (NpArr.a3 H W 4 d) = NpArr.a3 H W 3 d ∧
    normalize (NpArr.a2 H W g) = NpArr.a3 H W 3 (fun y x _ => g y x) ∧
    normalize (NpArr.a3 H W 3 d) = NpArr.a3 H W 3 d ∧
    normalize (NpArr.a1 n e) = NpArr.a1 n e ∧
    (∀ C, C ≠ 4 → normalize (NpArr.a3 H W C d) = NpArr.a3 H W C d) := by
  refine ⟨rfl, rfl, rfl, rfl, ?_⟩
  intro C hC
  rcases C with - | - | - | - | (- | C)
  · rfl
  · rfl
  · rfl
  · rfl
  · exact absurd rfl hC
  · rfl

/-- Witness for the amended C6 at a concrete 5-plane input. -/
theorem C6_amended_witness :
    (5 : ℕ) ≠ 4 ∧
    normalize (NpArr.a3 1 1 5 fun _ _ _ => 1) =
      NpArr.a3 1 1 5 (fun _ _ _ => 1) :=
  ⟨by decide,
    (C6_amended 1 1 (fun _ _ _ => 1) (fun _ _ => 0) 1 (fun _ => 0)).2.2.2.2 5
      (by decide)⟩

/-- C7: for a fixed input image and radius, and tolerances `t1 ≤ t2`, the
number of true pixels of the mask at tolerance `t1` is at most the number of
true pixels of the mask at tolerance `t2`. -/
theorem C7_tolerance_monotone (image : NpArr) (radius : ℤ) (t1 t2 : ℝ)
    (out1 out2 : POut) (ht : t1 ≤ t2)
    (h1 : process_image image radius t1 = Except.ok out1)
    (h2 : process_image image radius t2 = Except.ok out2) :
    trueCount out1.mask ≤ trueCount out2.mask := by
  rcases (process_ok_iff image radius t1 out1).1 h1 with
    ⟨-, H, W, d, hn, rfl⟩
  rcases (process_ok_iff image radius t2 out2).1 h2 with
    ⟨-, H', W', d', hn', rfl⟩
  rw [hn] at hn'
  injection hn' with e1 e2 e3 e4
  subst e1; subst e2; subst e4
  unfold trueCount
  apply Finset.card_le_card
  intro p hp
  simp only [Finset.mem_filter] at hp ⊢
  refine ⟨hp.1, ?_⟩
  have hm := hp.2
  simp only [mkOut, andMask, ltMask, absDiff] at hm ⊢
  exact ⟨⟨hm.1.1.trans_le ht, hm.1.2.trans_le ht⟩, hm.2.trans_le ht⟩

/-- Witness for C7 at a concrete grayscale input with tolerances 1/2 ≤ 1. -/
theorem C7_tolerance_monotone_witness :
    (1 / 2 : ℝ) ≤ 1 ∧
    process_image gray1 1 (1 / 2) = Except.ok (okOut gray1 1 (1 / 2)) ∧
    process_image gray1 1 1 = Except.ok (okOut gray1 1 1) ∧
    trueCount (okOut gray1 1 (1 / 2)).mask ≤
      trueCount (okOut gray1 1 1).mask :=
  ⟨by norm_num, rfl, rfl,
    C7_tolerance_monotone gray1 1 (1 / 2) 1 (okOut gray1 1 (1 / 2))
      (okOut gray1 1 1) (by norm_num) rfl rfl⟩

/-- C8: for every valid input image of extents `H × W`, every array returned
by `process_image` — normalized original, highlighted buffer, mask, and the
three entropy maps — has height `H` and width `W`. -/
theorem C8_shape_invariance (image : NpArr) (radius : ℤ) (tolerance : ℝ)
    (out : POut) (H W : ℕ) (hdim : inputDims image = some (H, W))
    (h : process_image image radius tolerance = Except.ok out) :
    (out.original.H = H ∧ out.original.W = W) ∧
    (out.highlighted.H = H ∧ out.highlighted.W = W) ∧
    (out.mask.H = H ∧ out.mask.W = W) ∧
    (out.entR.H = H ∧ out.entR.W = W) ∧
    (out.entG.H = H ∧ out.entG.W = W) ∧
    (out.entB.H = H ∧ out.entB.W = W) := by
  rcases (process_ok_iff image radius tolerance out).1 h with
    ⟨-, H', W', d, hn, rfl⟩
  rw [normalize_dims image H' W' 3 d hn] at hdim
  injection hdim with hdim
  have hH : H' = H := congrArg Prod.fst hdim
  have hW : W' = W := congrArg Prod.snd hdim
  subst hH; subst hW
  simp only [mkOut, highlight, entropy, andMask, ltMask, absDiff]
  tauto

/-- Witness for C8 at a concrete grayscale input. -/
theorem C8_shape_invariance_witness :
    inputDims gray1 = some (1, 1) ∧
    process_image gray1 1 1 = Except.ok (okOut gray1 1 1) ∧
    (((okOut gray1 1 1).original.H = 1 ∧ (okOut gray1 1 1).original.W = 1) ∧
    ((okOut gray1 1 1).highlighted.H = 1 ∧
      (okOut gray1 1 1).highlighted.W = 1) ∧
    ((okOut gray1 1 1).mask.H = 1 ∧ (okOut gray1 1 1).mask.W = 1) ∧
    ((okOut gray1 1 1).entR.H = 1 ∧ (okOut gray1 1 1).entR.W = 1) ∧
    ((okOut gray1 1 1).entG.H = 1 ∧ (okOut gray1 1 1).entG.W = 1) ∧
    ((okOut gray1 1 1).entB.H = 1 ∧ (okOut gray1 1 1).entB.W = 1)) :=
  ⟨rfl, rfl,
    C8_shape_invariance gray1 1 1 (okOut gray1 1 1) 1 1 rfl rfl⟩

/-- Each histogram-bin contribution to the entropy is nonnegative. -/
theorem binTerm_nonneg (c n : ℕ) (hc : c ≤ n) : 0 ≤ binTerm c n := by
  unfold binTerm
  apply div_nonneg _ (Real.log_nonneg one_le_two)
  apply Real.negMulLog_nonneg (by positivity)
  rcases Nat.eq_zero_or_pos n with h0 | hpos
  · subst h0
    simp
  · rw [div_le_one (by exact_mod_cast hpos)]
    exact_mod_cast hc

/-- The local entropy of any neighborhood is nonnegative. -/
theorem sum_binTerm_nonneg (vals : List ℕ) :
    0 ≤ ∑ v ∈ Finset.range 256, binTerm (vals.count v) vals.length :=
  Finset.sum_nonneg fun v _ => binTerm_nonneg _ _ (List.count_le_length v vals)

/-- The local entropy of a neighborhood of 8-bit samples is at most 8 bits:
Jensen's inequality for the concave `negMulLog` over the 256 histogram bins
bounds the entropy by `log 256 / log 2 = 8`. -/
theorem sum_binTerm_le_eight (vals : List ℕ) (hv : ∀ v ∈ vals, v < 256) :
    ∑ v ∈ Finset.range 256, binTerm (vals.count v) vals.length ≤ 8 := by
  rcases Nat.eq_zero_or_pos vals.length with h0 | hpos
  · have hnil : vals = [] := List.length_eq_zero.mp h0
    subst hnil
    simp [binTerm]
  · have hn0 : (0 : ℝ) < (vals.length : ℝ) := by exact_mod_cast hpos
    have hlog2 : (0 : ℝ) < Real.log 2 := Real.log_pos one_lt_two
    have hms : ∀ a ∈ (vals : Multiset ℕ), a ∈ Finset.range 256 := by
      intro a ha
      simpa using hv a (by simpa using ha)
    have hNat : ∑ v ∈ Finset.range 256, vals.count v = vals.length := by
      simpa using Multiset.sum_count_eq_card hms
    have hcount :
        ∑ v ∈ Finset.range 256, ((vals.count v : ℝ)) = (vals.length : ℝ) := by
      exact_mod_cast hNat
    have hsum1 :
        ∑ v ∈ Finset.range 256, ((vals.count v : ℝ) / (vals.length : ℝ)) =
          1 := by
      rw [← Finset.sum_div, hcount, div_self hn0.ne']
    have h0w : ∀ v ∈ Finset.range 256, (0 : ℝ) ≤ 1 / 256 := fun _ _ => by
      norm_num
    have h1w : ∑ _v ∈ Finset.range 256, (1 / 256 : ℝ) = 1 := by
      simp
    have hmem : ∀ v ∈ Finset.range 256,
        ((vals.count v : ℝ) / (vals.length : ℝ)) ∈ Set.Ici (0 : ℝ) :=
      fun v _ => Set.mem_Ici.mpr (div_nonneg (Nat.cast_nonneg _) (Nat.cast_nonneg _))
    have hjen := Real.concaveOn_negMulLog.le_map_sum h0w h1w hmem
    simp only [smul_eq_mul] at hjen
    rw [← Finset.mul_sum, ← Finset.mul_sum, hsum1, mul_one] at hjen
    have h256 : Real.negMulLog (1 / 256) = (1 / 256) * Real.log 256 := by
      simp only [Real.negMulLog, one_div, Real.log_inv]
      ring
    rw [h256] at hjen
    have hS : ∑ v ∈ Finset.range 256,
        Real.negMulLog ((vals.count v : ℝ) / (vals.length : ℝ)) ≤
          Real.log 256 :=
      le_of_mul_le_mul_left hjen (by norm_num)
    unfold binTerm
    rw [← Finset.sum_div, div_le_iff₀ hlog2]
    calc ∑ v ∈ Finset.range 256,
        Real.negMulLog ((vals.count v : ℝ) / (vals.length : ℝ)) ≤
          Real.log 256 := hS
      _ = 8 * Real.log 2 := by
          rw [show (256 : ℝ) = 2 ^ (8 : ℕ) by norm_num, Real.log_pow]
          norm_num

/-- C9: for every 8-bit input image on which `process_image` succeeds, every
value in each of the three entropy maps lies in the interval [0, 8]. -/
theorem C9_entropy_bounds (image : NpArr) (radius : ℤ) (tolerance : ℝ)
    (out : POut) (h8 : uint8 image)
    (h : process_image image radius tolerance = Except.ok out) (y x : ℕ) :
    (0 ≤ out.entR.d y x ∧ out.entR.d y x ≤ 8) ∧
    (0 ≤ out.entG.d y x ∧ out.entG.d y x ≤ 8) ∧
    (0 ≤ out.entB.d y x ∧ out.entB.d y x ≤ 8) := by
  rcases (process_ok_iff image radius tolerance out).1 h with
    ⟨-, H, W, d, hn, rfl⟩
  have hd := normalize_uint8 image H W d h8 hn
  simp only [mkOut, entropy]
  refine ⟨⟨sum_binTerm_nonneg _, ?_⟩, ⟨sum_binTerm_nonneg _, ?_⟩,
    ⟨sum_binTerm_nonneg _, ?_⟩⟩
  all_goals apply sum_binTerm_le_eight
  all_goals intro v hvm
  · obtain ⟨a, b, ha, hb, rfl⟩ := footprintVals_mem H W _ _ y x v hvm
    exact hd a b 0 ha hb (by omega)
  · obtain ⟨a, b, ha, hb, rfl⟩ := footprintVals_mem H W _ _ y x v hvm
    exact hd a b 1 ha hb (by omega)
  · obtain ⟨a, b, ha, hb, rfl⟩ := footprintVals_mem H W _ _ y x v hvm
    exact hd a b 2 ha hb (by omega)

/-- Witness for C9 at a concrete grayscale input. -/
theorem C9_entropy_bounds_witness :
    uint8 gray1 ∧
    process_image gray1 1 1 = Except.ok (okOut gray1 1 1) ∧
    ((0 ≤ (okOut gray1 1 1).entR.d 0 0 ∧ (okOut gray1 1 1).entR.d 0 0 ≤ 8) ∧
    (0 ≤ (okOut gray1 1 1).entG.d 0 0 ∧ (okOut gray1 1 1).entG.d 0 0 ≤ 8) ∧
    (0 ≤ (okOut gray1 1 1).entB.d 0 0 ∧ (okOut gray1 1 1).entB.d 0 0 ≤ 8)) :=
  ⟨fun _ _ _ _ => by norm_num, rfl,
    C9_entropy_bounds gray1 1 1 (okOut gray1 1 1)
      (fun _ _ _ _ => by norm_num) rfl 0 0⟩

/-- The entropy formula exactly as the spec words it: the sum of
`−p·log2(p)` over the symbols of the neighborhood whose empirical probability
`p` is strictly positive. -/
noncomputable def specEntropy (vals : List ℕ) : ℝ :=
  ∑ v ∈ vals.toFinset.filter
      (fun v => 0 < (vals.count v : ℝ) / (vals.length : ℝ)),
    -(((vals.count v : ℝ) / (vals.length : ℝ)) *
      Real.logb 2 ((vals.count v : ℝ) / (vals.length : ℝ)))

/-- The source-side `disk` footprint contains exactly the integer offsets
`(dy, dx)` with `dy² + dx² ≤ radius²`. -/
theorem mem_disk_iff (r : ℕ) (dy dx : ℤ) :
    (dy, dx) ∈ disk r ↔ dy ^ 2 + dx ^ 2 ≤ (r : ℤ) ^ 2 := by
  unfold disk
  rw [List.mem_filter]
  constructor
  · rintro ⟨-, hc⟩
    simpa using hc
  · intro hle
    refine ⟨?_, by simpa using hle⟩
    rw [List.mem_flatMap]
    have hdy : -(r : ℤ) ≤ dy ∧ dy ≤ r := by
      constructor <;> nlinarith
    have hdx : -(r : ℤ) ≤ dx ∧ dx ≤ r := by
      constructor <;> nlinarith
    refine ⟨(dy + r).toNat, ?_, ?_⟩
    · rw [List.mem_range]
      omega
    · rw [List.mem_map]
      refine ⟨(dx + r).toNat, ?_, ?_⟩
      · rw [List.mem_range]
        omega
      · have h1 : ((dy + r).toNat : ℤ) = dy + r := Int.toNat_of_nonneg (by omega)
        have h2 : ((dx + r).toNat : ℤ) = dx + r := Int.toNat_of_nonneg (by omega)
        rw [h1, h2]
        rw [Prod.ext_iff]
        constructor <;> dsimp <;> ring

/-- The 256-bin histogram entropy of the rank filter agrees with the spec's
`Σ −p·log2 p` over the symbols with positive probability, for 8-bit samples. -/
theorem entropy_eq_specEntropy (vals : List ℕ) (hv : ∀ v ∈ vals, v < 256) :
    ∑ v ∈ Finset.range 256, binTerm (vals.count v) vals.length =
      specEntropy vals := by
  unfold specEntropy
  have hterm : ∀ c n : ℕ, binTerm c n =
      -(((c : ℝ) / (n : ℝ)) * Real.logb 2 ((c : ℝ) / (n : ℝ))) := by
    intro c n
    unfold binTerm Real.negMulLog Real.logb
    ring
  simp only [hterm]
  have hsub : vals.toFinset.filter
      (fun v => 0 < (vals.count v : ℝ) / (vals.length : ℝ)) ⊆
        Finset.range 256 := by
    intro v hvf
    rw [Finset.mem_filter] at hvf
    exact Finset.mem_range.mpr (hv v (List.mem_toFinset.mp hvf.1))
  have hzero : ∀ v ∈ Finset.range 256,
      v ∉ vals.toFinset.filter
        (fun v => 0 < (vals.count v : ℝ) / (vals.length : ℝ)) →
      -(((vals.count v : ℝ) / (vals.length : ℝ)) *
        Real.logb 2 ((vals.count v : ℝ) / (vals.length : ℝ))) = 0 := by
    intro v hvr hvf
    by_cases hc : vals.count v = 0
    · simp [hc]
    · exfalso
      apply hvf
      rw [Finset.mem_filter]
      have hvmem : v ∈ vals := List.count_pos_iff.mp (Nat.pos_of_ne_zero hc)
      refine ⟨List.mem_toFinset.mpr hvmem, ?_⟩
      apply div_pos
      · exact_mod_cast Nat.pos_of_ne_zero hc
      · exact_mod_cast List.length_pos_of_mem hvmem
  exact (Finset.sum_subset hsub hzero).symm

/-- C5: for every channel and position, the entropy value is computed over
the disk-shaped neighborhood of all integer offsets `(dy, dx)` with
`dy² + dx² ≤ radius²` (not a square window), as `Σ −p·log2(p)` over the
empirical probabilities `p > 0` of the 8-bit histogram of that
neighborhood. -/
theorem C5_disk_neighborhood_entropy (H W : ℕ) (d : ℕ → ℕ → ℕ) (r y x : ℕ)
    (hd : ∀ a b, a < H → b < W → d a b < 256) :
    (∀ dy dx : ℤ, (dy, dx) ∈ disk r ↔ dy ^ 2 + dx ^ 2 ≤ (r : ℤ) ^ 2) ∧
    (entropy ⟨H, W, d⟩ (disk r)).d y x =
      specEntropy (footprintVals H W d (disk r) y x) := by
  refine ⟨mem_disk_iff r, ?_⟩
  simp only [entropy]
  apply entropy_eq_specEntropy
  intro v hvm
  obtain ⟨a, b, ha, hb, rfl⟩ := footprintVals_mem H W d (disk r) y x v hvm
  exact hd a b ha hb

/-- Witness for C5 at a concrete 1×1 channel with radius 1. -/
theorem C5_disk_neighborhood_entropy_witness :
    (∀ a b : ℕ, a < 1 → b < 1 → 128 < 256) ∧
    ((∀ dy dx : ℤ, (dy, dx) ∈ disk 1 ↔ dy ^ 2 + dx ^ 2 ≤ (1 : ℤ) ^ 2) ∧
    (entropy ⟨1, 1, fun _ _ => 128⟩ (disk 1)).d 0 0 =
      specEntropy (footprintVals 1 1 (fun _ _ => 128) (disk 1) 0 0)) :=
  ⟨fun _ _ _ _ => by norm_num,
    C5_disk_neighborhood_entropy 1 1 (fun _ _ => 128) 1 0 0
      (fun _ _ _ _ => by norm_num)⟩

end EntropyApp
